import Mathlib

/-!
Verification of `complexmath.h`.

A shallow embedding of `src/complexmath.h`: complex numbers are pairs
`(re, im)` (the `vector2` of the shading language, `z[0] = z.1`, `z[1] = z.2`,
`set(a, b) = (a, b)`).  The `float` components are read in two ways.

* The exact reading.  `float` arithmetic is read as exact arithmetic, over an
  arbitrary field `F` for `cmult`, `cmulti` and the guard of `cdiv`, and over
  `ℝ` for the functions that call `length`, `atan2`, `cos`, `sin`, `log`, `pow`
  or `sqrt`.  Where a `float` operation would leave the finite numbers (a
  division by zero, `log` of a non-positive number, `pow` of zero to a negative
  exponent or of a negative base to a non-integral exponent, `sqrt` of a
  negative number), the embedded primitive returns `none`.  `int` arguments are
  only ever converted to `float`, so they are integers `ℤ` cast to `ℝ`.  This
  reading is used only for properties that rounding does not affect: the
  guards and fallbacks at zero, the sign and the zero of the modulus, the
  values on the axes, and products with `0` and `1`.

* The binary32 reading (namespace `Binary32`).  `cadd`, `csub`, `cmult` and
  `cdiv` use only `+`, `-`, `*`, `/` and `== 0`, whose results IEEE 754 fixes
  bit for bit, so they are embedded over a model of binary32 with rounding to
  nearest, ties to even, gradual underflow and overflow to infinity.  This
  reading is used for the properties that rounding decides.
-/

namespace ComplexMath

/-! ## Exact reading: primitives of the host language -/

/-- Division `a / b` of two `float`s: undefined (`none`) for `b = 0`. -/
def fdiv {F : Type} [Field F] [DecidableEq F] (a b : F) : Option F :=
  if b = 0 then none else some (a / b)

noncomputable section

/-- The constant `M_PI`. -/
def M_PI : ℝ := Real.pi

/-- The constant `M_E`. -/
def M_E : ℝ := Real.exp 1

/-- The built-in `length(z)` on `vector2`: the Euclidean norm. -/
def length (z : ℝ × ℝ) : ℝ := Real.sqrt (z.1 * z.1 + z.2 * z.2)

/-- The built-in `atan2(y, x)`: the angle of the point `(x, y)` in `(-π, π]`,
with `atan2(0, 0) = 0`. -/
def atan2 (y x : ℝ) : ℝ := Complex.arg ⟨x, y⟩

/-- The built-in `log(x)`: the natural logarithm, undefined for `x ≤ 0`. -/
def log (x : ℝ) : Option ℝ :=
  if 0 < x then some (Real.log x) else none

/-- The built-in `sqrt(x)`: undefined for `x < 0`. -/
def sqrt (x : ℝ) : Option ℝ :=
  if 0 ≤ x then some (Real.sqrt x) else none

/-- The built-in `pow(x, y)`: `x ^ y` for a positive base; `pow(0, y)` is `1`
for `y = 0`, `0` for `y > 0` and undefined for `y < 0`; a negative base is
defined for an integral exponent only. -/
def pow (x y : ℝ) : Option ℝ :=
  if 0 < x then some (x ^ y)
  else if x = 0 then (if y < 0 then none else some ((0 : ℝ) ^ y))
  else if y = (⌊y⌋ : ℝ) then some (x ^ ⌊y⌋)
  else none

end

/-! ## Exact reading: the functions of `complexmath.h` -/

/-- Source function `cmult`: multiplication of complex numbers. -/
def cmult {F : Type} [Field F] (z w : F × F) : F × F :=
  let re := z.1 * w.1 - z.2 * w.2
  let im := z.1 * w.2 + z.2 * w.1
  (re, im)

/-- Source function `cmulti`: multiplication of a complex number by an imaginary number. -/
def cmulti {F : Type} [Field F] (z : F × F) (c : F) : F × F :=
  let re := -z.2 * c
  let im := z.1 * c
  (re, im)

/-- Source function `cdiv`: division of complex numbers, with the guard on `d == 0`. -/
def cdiv {F : Type} [Field F] [DecidableEq F] (z w : F × F) : Option (F × F) :=
  let d := w.1 * w.1 + w.2 * w.2
  if d = 0 then some (0, 0)
  else do
    let re ← fdiv (z.1 * w.1 + z.2 * w.2) d
    let im ← fdiv (z.2 * w.1 - z.1 * w.2) d
    pure (re, im)

noncomputable section

/-- Source function `carg`: argument of a complex number. -/
def carg (z : ℝ × ℝ) : ℝ := atan2 z.2 z.1

/-- Source function `clog`: the `k`-th branch of the natural logarithm. -/
def clog (z : ℝ × ℝ) (k : ℤ) : Option (ℝ × ℝ) :=
  let r := length z
  if r = 0 then some (0, 0)
  else do
    let l ← log r
    pure (l, atan2 z.2 z.1 + (2 * M_PI * (k : ℝ)))

/-- Source function `cnpow`: a complex number to a real power (De Moivre). -/
def cnpow (z : ℝ × ℝ) (n : ℝ) : Option (ℝ × ℝ) := do
  let r ← pow (length z) n
  let theta := n * atan2 z.2 z.1
  pure (r * Real.cos theta, r * Real.sin theta)

/-- Source function `ncpow`: a real number to a complex power. -/
def ncpow (n : ℝ) (z : ℝ × ℝ) : Option (ℝ × ℝ) := do
  let r ← pow n z.1
  let l ← log n
  let theta := z.2 * l
  pure (r * Real.cos theta, r * Real.sin theta)

/-- Source function `ccpow`: a complex number to a complex power, on the `k`-th branch. -/
def ccpow (z w : ℝ × ℝ) (k : ℤ) : Option (ℝ × ℝ) := do
  let l ← clog z k
  let exponent := cmult w l
  ncpow M_E exponent

/-- Source function `csqrt`: complex square root. -/
def csqrt (z : ℝ × ℝ) : Option (ℝ × ℝ) :=
  let r := length z
  if r = 0 then some (0, 0)
  else do
    let theta := 0.5 * atan2 z.2 z.1
    let s ← sqrt r
    pure (s * Real.cos theta, s * Real.sin theta)

/-- Source function `cnroot`: the `k`-th of the `n`-th roots of a complex number. -/
def cnroot (z : ℝ × ℝ) (n k : ℤ) : Option (ℝ × ℝ) :=
  let r := length z
  if r = 0 then some (0, 0)
  else do
    let theta := atan2 z.2 z.1
    let e ← fdiv 1 (n : ℝ)
    let r_root ← pow r e
    let a ← fdiv theta (n : ℝ)
    let b ← fdiv (2 * (k : ℝ) * M_PI) (n : ℝ)
    let theta_root := a + b
    let re := r_root * Real.cos theta_root
    let im := r_root * Real.sin theta_root
    pure (re, im)

end

/-! ## Auxiliary notions used in the proofs -/

namespace Binary32

/-- A binary32 value.  Every finite binary32 number is an integer multiple of
the least subnormal `2^(-149)`: `fin m` is the number `m * 2^(-149)`, so `1.0`
is `fin (2^149)`; the binary32 numbers are the `fin m` with `Representable m`
below.  The two zeros are identified (they compare equal, and `cadd`, `csub`,
`cmult`, `cdiv` never tell them apart, the only division by a zero being
guarded).  `inf s` is the infinity of sign `s` (`true` for negative) and `nan`
is NaN. -/
inductive F32
  | fin (m : ℤ)
  | inf (negative : Bool)
  | nan
  deriving DecidableEq

open F32

/-- The binade of `n` counted in units of `2^(-149)`: the number of halvings
that bring `n` below `2^24`, so that `2 ^ ulpExp n n` is the spacing of the
binary32 numbers around `n` (it is `1` throughout the subnormal range and the
first binades).  The first argument bounds the recursion. -/
def ulpExp : ℕ → ℕ → ℕ
  | 0, _ => 0
  | fuel + 1, n => if n < 2 ^ 24 then 0 else ulpExp fuel (n / 2) + 1

/-- Rounding of the nonnegative rational `P / Q` (in units of `2^(-149)`) to
the nearest number with a 24-bit significand, ties to even; the exponent is
unbounded above. -/
def roundNat (P Q : ℕ) : ℕ :=
  let U := 2 ^ ulpExp (P / Q) (P / Q)
  let D := Q * U
  let n := P / D
  let r := P % D
  let n1 := if 2 * r < D then n else if D < 2 * r then n + 1 else if n % 2 = 0 then n else n + 1
  n1 * U

/-- Rounding of the rational `p / Q` (in units of `2^(-149)`) to binary32:
round to nearest, ties to even, and overflow to the infinity of the same sign
once the rounded magnitude reaches `2^128 = 2^277 * 2^(-149)`. -/
def round32 (p : ℤ) (Q : ℕ) : F32 :=
  let m := roundNat p.natAbs Q
  if 2 ^ 277 ≤ m then inf (decide (p < 0)) else fin (if p < 0 then -(m : ℤ) else m)

/-- The binary32 sum `x + y`. -/
def fadd : F32 → F32 → F32
  | fin a, fin b => round32 (a + b) 1
  | fin _, inf s => inf s
  | inf s, fin _ => inf s
  | inf s, inf t => if s = t then inf s else nan
  | _, _ => nan

/-- The binary32 negation `-x`. -/
def fneg : F32 → F32
  | fin a => fin (-a)
  | inf s => inf (!s)
  | nan => nan

/-- The binary32 difference `x - y`, which is `x + (-y)`. -/
def fsub (x y : F32) : F32 := fadd x (fneg y)

/-- The binary32 product `x * y`. -/
def fmul : F32 → F32 → F32
  | fin a, fin b => round32 (a * b) (2 ^ 149)
  | fin a, inf s => if a = 0 then nan else inf (xor (decide (a < 0)) s)
  | inf s, fin b => if b = 0 then nan else inf (xor s (decide (b < 0)))
  | inf s, inf t => inf (xor s t)
  | _, _ => nan

/-- The binary32 quotient `x / y`.  A zero divisor is taken as `+0` (the zeros
being identified); `cdiv` never reaches that case. -/
def fdiv : F32 → F32 → F32
  | fin a, fin b =>
    if b = 0 then (if a = 0 then nan else inf (decide (a < 0)))
    else round32 (if b < 0 then -(a * 2 ^ 149) else a * 2 ^ 149) b.natAbs
  | fin _, inf _ => fin 0
  | inf s, fin b => inf (xor s (decide (b < 0)))
  | _, _ => nan

/-- The comparison `x == 0`. -/
def isZero : F32 → Bool
  | fin m => decide (m = 0)
  | _ => false

/-- Source function `cadd` over binary32. -/
def cadd (z w : F32 × F32) : F32 × F32 :=
  (fadd z.1 w.1, fadd z.2 w.2)

/-- Source function `csub` over binary32. -/
def csub (z w : F32 × F32) : F32 × F32 :=
  (fsub z.1 w.1, fsub z.2 w.2)

/-- Source function `cmult` over binary32. -/
def cmult (z w : F32 × F32) : F32 × F32 :=
  let re := fsub (fmul z.1 w.1) (fmul z.2 w.2)
  let im := fadd (fmul z.1 w.2) (fmul z.2 w.1)
  (re, im)

/-- Source function `cdiv` over binary32, with the guard on `d == 0`. -/
def cdiv (z w : F32 × F32) : F32 × F32 :=
  let d := fadd (fmul w.1 w.1) (fmul w.2 w.2)
  if isZero d then (fin 0, fin 0)
  else
    let re := fdiv (fadd (fmul z.1 w.1) (fmul z.2 w.2)) d
    let im := fdiv (fsub (fmul z.2 w.1) (fmul z.1 w.2)) d
    (re, im)

/-- The integer `m` counts a binary32 number in units of `2^(-149)`: rounding
leaves it unchanged. -/
def Representable (m : ℤ) : Prop := round32 m 1 = fin m

/-- The sum `x + y` of two finite numbers is computed without rounding. -/
def exactAdd : F32 → F32 → Bool
  | fin a, fin b => decide (fadd (fin a) (fin b) = fin (a + b))
  | _, _ => false

/-- The difference `x - y` of two finite numbers is computed without rounding. -/
def exactSub : F32 → F32 → Bool
  | fin a, fin b => decide (fsub (fin a) (fin b) = fin (a - b))
  | _, _ => false

/-- The product `x * y` of two finite numbers is computed without rounding: the
exact product `a * b * 2^(-298)` is a multiple of `2^(-149)` and is the
result. -/
def exactMul : F32 → F32 → Bool
  | fin a, fin b =>
    decide (a * b % 2 ^ 149 = 0) && decide (fmul (fin a) (fin b) = fin (a * b / 2 ^ 149))
  | _, _ => false

/-- No operation of `cmult z w` is rounded. -/
def cmultExact (z w : F32 × F32) : Bool :=
  exactMul z.1 w.1 && exactMul z.2 w.2 && exactSub (fmul z.1 w.1) (fmul z.2 w.2) &&
  exactMul z.1 w.2 && exactMul z.2 w.1 && exactAdd (fmul z.1 w.2) (fmul z.2 w.1)

/-- No operation of `cdiv z w` before its two quotients is rounded. -/
def cdivExact (z w : F32 × F32) : Bool :=
  exactMul w.1 w.1 && exactMul w.2 w.2 && exactAdd (fmul w.1 w.1) (fmul w.2 w.2) &&
  exactMul z.1 w.1 && exactMul z.2 w.2 && exactAdd (fmul z.1 w.1) (fmul z.2 w.2) &&
  exactMul z.2 w.1 && exactMul z.1 w.2 && exactSub (fmul z.2 w.1) (fmul z.1 w.2)

/-- The value of the finite number `fin m`. -/
def val (m : ℤ) : ℚ := (m : ℚ) / 2 ^ 149

/-- The value is a finite number. -/
def isFin : F32 → Bool
  | fin _ => true
  | _ => false

/-- The value is a finite number of magnitude at least `2^(-126)`, the least
normal number. -/
def isNormal : F32 → Bool
  | fin m => decide (2 ^ 23 ≤ m.natAbs)
  | _ => false

/-- The sum of two finite numbers does not overflow. -/
def safeAdd (x y : F32) : Bool :=
  isFin x && isFin y && isFin (fadd x y)

/-- The difference of two finite numbers does not overflow. -/
def safeSub (x y : F32) : Bool :=
  isFin x && isFin y && isFin (fsub x y)

/-- The product of two finite numbers neither overflows nor underflows: it is
in the normal range unless a factor is zero. -/
def safeMul (x y : F32) : Bool :=
  isFin x && isFin y && (isZero x || isZero y || isNormal (fmul x y))

/-- The quotient of two finite numbers has a nonzero divisor and neither
overflows nor underflows: it is in the normal range unless the dividend is
zero. -/
def safeDiv (x y : F32) : Bool :=
  isFin x && isFin y && !isZero y && (isZero x || isNormal (fdiv x y))

/-- No operation of `cmult z w` overflows or underflows. -/
def cmultSafe (z w : F32 × F32) : Bool :=
  safeMul z.1 w.1 && safeMul z.2 w.2 && safeSub (fmul z.1 w.1) (fmul z.2 w.2) &&
  safeMul z.1 w.2 && safeMul z.2 w.1 && safeAdd (fmul z.1 w.2) (fmul z.2 w.1)

/-- No operation of `cdiv z w` overflows or underflows, and `d` is not zero. -/
def cdivSafe (z w : F32 × F32) : Bool :=
  safeMul w.1 w.1 && safeMul w.2 w.2 && safeAdd (fmul w.1 w.1) (fmul w.2 w.2) &&
  safeMul z.1 w.1 && safeMul z.2 w.2 && safeAdd (fmul z.1 w.1) (fmul z.2 w.2) &&
  safeMul z.2 w.1 && safeMul z.1 w.2 && safeSub (fmul z.2 w.1) (fmul z.1 w.2) &&
  safeDiv (fadd (fmul z.1 w.1) (fmul z.2 w.2)) (fadd (fmul w.1 w.1) (fmul w.2 w.2)) &&
  safeDiv (fsub (fmul z.2 w.1) (fmul z.1 w.2)) (fadd (fmul w.1 w.1) (fmul w.2 w.2))

end Binary32

/-! ## Division: the guard -/

/-- C2: `cdiv z (0,0) = (0,0)`; more generally `cdiv z w = (0,0)` whenever
`w[0]*w[0] + w[1]*w[1] = 0`; and `cdiv` never divides by zero: it is defined
(no `fdiv` with a zero divisor is evaluated) for all `z` and `w`. -/
theorem cdiv_zero_guard {F : Type} [Field F] [DecidableEq F] (z w : F × F) :
    cdiv z (0, 0) = some (0, 0) ∧
    (w.1 * w.1 + w.2 * w.2 = 0 → cdiv z w = some (0, 0)) ∧
    (cdiv z w).isSome = true := by
  refine ⟨by simp [cdiv], fun h => by simp [cdiv, h], ?_⟩
  by_cases h : w.1 * w.1 + w.2 * w.2 = 0 <;> simp [cdiv, fdiv, h]

/-- Witness of C2 over `ℚ`, with a dividend and the zero divisor. -/
theorem cdiv_zero_guard_witness :
    (0 : ℚ) * 0 + 0 * 0 = 0 ∧ cdiv ((5 : ℚ), (7 : ℚ)) (0, 0) = some (0, 0) :=
  ⟨by norm_num, (cdiv_zero_guard ((5 : ℚ), (7 : ℚ)) (0, 0)).2.1 (by norm_num)⟩

/-! ## Modulus and argument -/

lemma length_zero : length (0, 0) = 0 := by
  simp [length]

lemma atan2_zero_one : atan2 0 1 = 0 := by
  have h : (⟨1, 0⟩ : ℂ) = 1 := by apply Complex.ext <;> simp
  rw [atan2, h, Complex.arg_one]

/-- C14: `carg (1,0) = 0`, `carg (0,1) = π/2` and `carg (-1,0) = π`. -/
theorem carg_axes :
    carg (1, 0) = 0 ∧ carg (0, 1) = M_PI / 2 ∧ carg (-1, 0) = M_PI := by
  have h1 : (⟨0, 1⟩ : ℂ) = Complex.I := by apply Complex.ext <;> simp
  have h2 : (⟨-1, 0⟩ : ℂ) = -1 := by apply Complex.ext <;> simp
  refine ⟨atan2_zero_one, ?_, ?_⟩
  · show Complex.arg ⟨0, 1⟩ = Real.pi / 2
    rw [h1, Complex.arg_I]
  · show Complex.arg ⟨-1, 0⟩ = Real.pi
    rw [h2, Complex.arg_neg_one]

/-! ## The fallback at the origin -/

lemma clog_zero (k : ℤ) : clog (0, 0) k = some (0, 0) := by
  simp only [clog, length_zero, if_true]

lemma csqrt_zero : csqrt (0, 0) = some (0, 0) := by
  simp only [csqrt, length_zero, if_true]

lemma cnroot_zero (n k : ℤ) : cnroot (0, 0) n k = some (0, 0) := by
  simp only [cnroot, length_zero, if_true]

/-- C11: at the origin the logarithm and the roots return the zero pair:
`clog (0,0) k = (0,0)` for every `k`, `csqrt (0,0) = (0,0)`, and
`cnroot (0,0) n k = (0,0)` for every `n` (also `n = 0`) and every `k`. -/
theorem origin_fallback (n k : ℤ) :
    clog (0, 0) k = some (0, 0) ∧ csqrt (0, 0) = some (0, 0) ∧
    cnroot (0, 0) n k = some (0, 0) ∧ cnroot (0, 0) 0 k = some (0, 0) :=
  ⟨clog_zero k, csqrt_zero, cnroot_zero n k, cnroot_zero 0 k⟩

/-! ## Products -/

/-- C16: for every `z`, `cmult z (1,0) = z`. -/
theorem cmult_one {F : Type} [Field F] (z : F × F) : cmult z (1, 0) = z := by
  obtain ⟨a, b⟩ := z
  simp only [cmult, mul_one, mul_zero, sub_zero, zero_add]

/-- C17: for every `z` and every scalar `c`, `cmulti z c = cmult z (0, c)`, the
product of `z` with `c i`, which is `(-im * c, re * c)`. -/
theorem cmulti_eq_cmult {F : Type} [Field F] (z : F × F) (c : F) :
    cmulti z c = cmult z (0, c) ∧ cmulti z c = (-z.2 * c, z.1 * c) := by
  obtain ⟨a, b⟩ := z
  refine ⟨?_, rfl⟩
  simp only [cmulti, cmult, mul_zero, zero_sub, add_zero, neg_mul]

/-! ## A zero base -/

/-- With base `M_E`, `ncpow` is the exponential in Euler form. -/
lemma ncpow_e (w : ℝ × ℝ) :
    ncpow M_E w = some (Real.exp w.1 * Real.cos w.2, Real.exp w.1 * Real.sin w.2) := by
  have he : 0 < Real.exp 1 := Real.exp_pos 1
  simp only [ncpow, pow, log, M_E, if_pos he, Real.exp_one_rpow, Real.log_exp, mul_one,
    Option.bind_eq_bind, Option.some_bind, Option.pure_def]

/-- C20: for every exponent `w` and every `k`, `ccpow (0,0) w k` is `(1,0)` and
not `(0,0)` (the fallback of `clog` makes the exponent `(0,0)`), in particular
for `w = (1,0)` and `w = (2,0)`, whereas `cnpow (0,0) n = (0,0)` for real
`n > 0`. -/
theorem ccpow_zero_base (w : ℝ × ℝ) (k : ℤ) (n : ℝ) (hn : 0 < n) :
    ccpow (0, 0) w k = some (1, 0) ∧ ccpow (0, 0) w k ≠ some (0, 0) ∧
    ccpow (0, 0) (1, 0) k = some (1, 0) ∧ ccpow (0, 0) (2, 0) k = some (1, 0) ∧
    cnpow (0, 0) n = some (0, 0) ∧ ccpow (0, 0) (n, 0) k ≠ cnpow (0, 0) n := by
  have key : ∀ v : ℝ × ℝ, ccpow (0, 0) v k = some (1, 0) := by
    intro v
    simp only [ccpow, clog_zero, Option.bind_eq_bind, Option.some_bind]
    rw [ncpow_e]
    simp [cmult]
  have hne : (some ((1 : ℝ), (0 : ℝ)) : Option (ℝ × ℝ)) ≠ some (0, 0) := by
    intro h
    have h1 := congrArg Prod.fst (Option.some.inj h)
    exact one_ne_zero h1
  have hc : cnpow (0, 0) n = some (0, 0) := by
    have h2 : ¬ (n < 0) := not_lt.mpr hn.le
    simp only [cnpow, pow, length_zero, lt_irrefl, if_false, if_true, h2,
      Real.zero_rpow hn.ne.symm, Option.bind_eq_bind, Option.some_bind, Option.pure_def, zero_mul]
  refine ⟨key w, ?_, key _, key _, hc, ?_⟩
  · rw [key w]; exact hne
  · rw [key, hc]; exact hne

/-- Witness of C20 at `w = (2, 0)`, `k = 0` and the real exponent `2`. -/
theorem ccpow_zero_base_witness :
    (0 : ℝ) < 2 ∧ ccpow (0, 0) (2, 0) 0 = some (1, 0) ∧ cnpow (0, 0) 2 = some (0, 0) :=
  ⟨by norm_num, (ccpow_zero_base (2, 0) 0 2 (by norm_num)).1,
    (ccpow_zero_base (2, 0) 0 2 (by norm_num)).2.2.2.2.1⟩

/-! ## Binary32 reading: rounding -/

namespace Binary32

open F32

lemma roundNat_mul_right (A Q : ℕ) (hQ : 0 < Q) : roundNat (A * Q) Q = roundNat A 1 := by
  have h1 : A * Q / Q = A := Nat.mul_div_cancel A hQ
  simp only [roundNat, h1, Nat.div_one, one_mul]
  generalize 2 ^ ulpExp A A = U
  have h2 : A * Q / (Q * U) = A / U := by
    rw [mul_comm A Q]; exact Nat.mul_div_mul_left A U hQ
  have h3 : A * Q % (Q * U) = Q * (A % U) := by
    rw [mul_comm A Q]; exact Nat.mul_mod_mul_left Q A U
  rw [h2, h3]
  have e1 : (2 * (Q * (A % U)) < Q * U) ↔ (2 * (A % U) < U) := by
    rw [show 2 * (Q * (A % U)) = Q * (2 * (A % U)) by ring]
    exact Nat.mul_lt_mul_left hQ
  have e2 : (Q * U < 2 * (Q * (A % U))) ↔ (U < 2 * (A % U)) := by
    rw [show 2 * (Q * (A % U)) = Q * (2 * (A % U)) by ring]
    exact Nat.mul_lt_mul_left hQ
  simp only [e1, e2]

lemma round32_mul_right (a : ℤ) (Q : ℕ) (hQ : 0 < Q) : round32 (a * Q) Q = round32 a 1 := by
  have h1 : (a * (Q : ℤ)).natAbs = a.natAbs * Q := by
    rw [Int.natAbs_mul, Int.natAbs_ofNat]
  have h2 : (a * (Q : ℤ) < 0) ↔ (a < 0) := by
    have hq : (0 : ℤ) < Q := by exact_mod_cast hQ
    constructor
    · intro h
      by_contra hn
      push_neg at hn
      have := mul_nonneg hn hq.le
      omega
    · intro h
      exact mul_neg_of_neg_of_pos h hq
  simp only [round32, h1, roundNat_mul_right _ _ hQ, h2]

lemma fadd_fin (a b : ℤ) : fadd (fin a) (fin b) = round32 (a + b) 1 := rfl

lemma fsub_fin (a b : ℤ) : fsub (fin a) (fin b) = round32 (a - b) 1 := by
  simp only [fsub, fneg, fadd, sub_eq_add_neg]

/-- A quotient whose exact value is a binary32 number is that number. -/
lemma fdiv_of_exact {x n e : ℤ} (hx : Representable x) (he : 0 < e) (h : n * 2 ^ 149 = x * e) :
    fdiv (fin n) (fin e) = fin x := by
  have h1 : ¬ e = 0 := he.ne.symm
  have h2 : ¬ e < 0 := not_lt.mpr he.le
  have h3 : (e.natAbs : ℤ) = e := Int.natAbs_of_nonneg he.le
  have h4 : 0 < e.natAbs := Int.natAbs_pos.mpr h1
  simp only [fdiv, if_neg h1, if_neg h2, h]
  rw [← h3, Int.natAbs_ofNat, round32_mul_right x _ h4]
  exact hx

/-- An exact product is a binary32 number `m` with `m * 2^149 = a * b` in units
of `2^(-149)`. -/
lemma exactMul_fin {a b : ℤ} (h : exactMul (fin a) (fin b) = true) :
    ∃ m : ℤ, m * 2 ^ 149 = a * b ∧ fmul (fin a) (fin b) = fin m := by
  simp only [exactMul, Bool.and_eq_true, decide_eq_true_eq] at h
  exact ⟨a * b / 2 ^ 149, Int.ediv_mul_cancel (Int.dvd_of_emod_eq_zero h.1), h.2⟩

/-- With enough fuel, `ulpExp` finds the binade: the significand fits in 24
bits, and the unit in the last place is at most `n / 2^23` unless it is `1`. -/
lemma ulpExp_spec (fuel n : ℕ) (h : n < 2 ^ 24 * 2 ^ fuel) :
    n / 2 ^ ulpExp fuel n < 2 ^ 24 ∧ (ulpExp fuel n = 0 ∨ 2 ^ 23 * 2 ^ ulpExp fuel n ≤ n) := by
  induction fuel generalizing n with
  | zero =>
    simp only [ulpExp, pow_zero, Nat.div_one, mul_one] at h ⊢
    exact ⟨h, Or.inl trivial⟩
  | succ k ih =>
    by_cases hn : n < 2 ^ 24
    · simp only [ulpExp, if_pos hn, pow_zero, Nat.div_one]
      exact ⟨hn, Or.inl trivial⟩
    · have h2 : n / 2 < 2 ^ 24 * 2 ^ k := by
        rw [pow_succ] at h
        omega
      obtain ⟨i1, i2⟩ := ih (n / 2) h2
      simp only [ulpExp, if_neg hn]
      refine ⟨?_, Or.inr ?_⟩
      · rw [pow_succ, mul_comm, ← Nat.div_div_eq_div_mul]
        exact i1
      · rcases i2 with i2 | i2
        · rw [i2]
          omega
        · have h3 : 2 * (n / 2) ≤ n := Nat.mul_div_le n 2
          have h4 : 2 ^ 23 * 2 ^ (ulpExp k (n / 2) + 1) = 2 * (2 ^ 23 * 2 ^ ulpExp k (n / 2)) := by
            rw [pow_succ]; ring
          rw [h4]
          omega

/-- Rounding an integer count of `2^(-149)` moves it by at most the relative
error `2^(-24)`. -/
lemma roundNat_error (P : ℕ) :
    2 ^ 24 * ((roundNat P 1 : ℤ) - P).natAbs ≤ P := by
  have hfuel : P < 2 ^ 24 * 2 ^ P := by
    have := Nat.lt_two_pow P
    exact lt_of_lt_of_le this (Nat.le_mul_of_pos_left _ (Nat.two_pow_pos 24))
  obtain ⟨-, hU⟩ := ulpExp_spec P P hfuel
  simp only [roundNat, Nat.div_one, one_mul]
  generalize ulpExp P P = E at hU
  have hUpos : 0 < 2 ^ E := Nat.two_pow_pos E
  have hdm : P / 2 ^ E * 2 ^ E + P % 2 ^ E = P := Nat.div_add_mod' P (2 ^ E)
  have hmod := Nat.mod_lt P hUpos
  rcases hU with hU | hU
  · subst hU
    simp only [pow_zero, Nat.mod_one, Nat.div_one, mul_zero, mul_one, Nat.lt_one_iff,
      if_true, sub_self, Int.natAbs_zero, Nat.zero_le, zero_lt_one]
  · generalize 2 ^ E = U at *
    generalize P % U = r at *
    have hs : (P / U + 1) * U = P / U * U + U := by ring
    obtain ⟨m, hm⟩ : ∃ m, P / U * U = m := ⟨_, rfl⟩
    rw [hm] at hdm hs
    have e1 : ((m : ℕ) : ℤ) - ((P : ℕ) : ℤ) = -((r : ℕ) : ℤ) := by omega
    have e2 : ((m + U : ℕ) : ℤ) - ((P : ℕ) : ℤ) = ((U - r : ℕ) : ℤ) := by omega
    split_ifs
    · rw [hm, e1, Int.natAbs_neg, Int.natAbs_ofNat]
      omega
    · rw [hs, e2, Int.natAbs_ofNat]
      omega
    · rw [hm, e1, Int.natAbs_neg, Int.natAbs_ofNat]
      omega
    · rw [hs, e2, Int.natAbs_ofNat]
      omega

/-- A finite result of rounding an integer count of `2^(-149)` is within the
relative error `2^(-24)` of it. -/
lemma round32_error {p m : ℤ} (h : round32 p 1 = fin m) :
    2 ^ 24 * (m - p).natAbs ≤ p.natAbs := by
  have hr := roundNat_error p.natAbs
  simp only [round32] at h
  split_ifs at h with h1 h2
  · simp only [fin.injEq] at h
    subst h
    have e : -((roundNat p.natAbs 1 : ℕ) : ℤ) - p = -(((roundNat p.natAbs 1 : ℕ) : ℤ) - (p.natAbs : ℤ)) := by
      omega
    rw [e, Int.natAbs_neg]
    exact hr
  · simp only [fin.injEq] at h
    subst h
    have e : ((roundNat p.natAbs 1 : ℕ) : ℤ) - p = ((roundNat p.natAbs 1 : ℕ) : ℤ) - (p.natAbs : ℤ) := by
      omega
    rw [e]
    exact hr

/-- The error of `(a + c) - c` over binary32 when nothing overflows. -/
lemma fsub_fadd_error {a c s r : ℤ} (h1 : fadd (fin a) (fin c) = fin s)
    (h2 : fsub (fin s) (fin c) = fin r) :
    2 ^ 23 * |r - a| ≤ |a| + |a + c| := by
  rw [fadd_fin] at h1
  rw [fsub_fin] at h2
  have e1 := round32_error h1
  have e2 := round32_error h2
  have e3 : ((2 ^ 24 * (s - (a + c)).natAbs : ℕ) : ℤ) ≤ ((a + c).natAbs : ℤ) := by exact_mod_cast e1
  have e4 : ((2 ^ 24 * (r - (s - c)).natAbs : ℕ) : ℤ) ≤ ((s - c).natAbs : ℤ) := by exact_mod_cast e2
  push_cast at e3 e4
  have t1 : |r - a| ≤ |r - (s - c)| + |s - (a + c)| := by
    have := abs_add (r - (s - c)) (s - (a + c))
    have e : r - (s - c) + (s - (a + c)) = r - a := by ring
    rwa [e] at this
  have t2 : |s - c| ≤ |a| + |s - (a + c)| := by
    have := abs_add a (s - (a + c))
    have e : a + (s - (a + c)) = s - c := by ring
    rwa [e] at this
  have n1 := abs_nonneg (s - (a + c))
  have n2 := abs_nonneg a
  have n3 := abs_nonneg (a + c)
  linarith

/-- Rounding the zero count gives zero. -/
lemma roundNat_zero (Q : ℕ) (hQ : 0 < Q) : roundNat 0 Q = 0 := by
  simp [roundNat, ulpExp, hQ]

/-- The error of rounding `P / Q`: at most half a unit in the last place, and
the unit in the last place is `1` or at most `P / Q / 2^23`. -/
lemma roundNat_error_gen (P Q : ℕ) (hQ : 0 < Q) :
    ∃ U : ℕ, 0 < U ∧ 2 * ((roundNat P Q * Q : ℕ) - (P : ℤ)).natAbs ≤ Q * U ∧
      (U = 1 ∨ 2 ^ 23 * (Q * U) ≤ P) := by
  have hfuel : P / Q < 2 ^ 24 * 2 ^ (P / Q) := by
    have := Nat.lt_two_pow (P / Q)
    exact lt_of_lt_of_le this (Nat.le_mul_of_pos_left _ (Nat.two_pow_pos 24))
  obtain ⟨-, hU⟩ := ulpExp_spec (P / Q) (P / Q) hfuel
  refine ⟨2 ^ ulpExp (P / Q) (P / Q), Nat.two_pow_pos _, ?_, ?_⟩
  · simp only [roundNat]
    have hUpos : 0 < 2 ^ ulpExp (P / Q) (P / Q) := Nat.two_pow_pos _
    generalize 2 ^ ulpExp (P / Q) (P / Q) = U at hUpos ⊢
    have hD : 0 < Q * U := Nat.mul_pos hQ hUpos
    have hdm : P / (Q * U) * (Q * U) + P % (Q * U) = P := Nat.div_add_mod' P (Q * U)
    have hmod := Nat.mod_lt P hD
    generalize P % (Q * U) = r at *
    have hs : ∀ n : ℕ, n * U * Q = n * (Q * U) := fun n => by ring
    have hs1 : (P / (Q * U) + 1) * (Q * U) = P / (Q * U) * (Q * U) + Q * U := by ring
    obtain ⟨m, hm⟩ : ∃ m, P / (Q * U) * (Q * U) = m := ⟨_, rfl⟩
    rw [hm] at hdm hs1
    generalize Q * U = D at *
    have e1 : ((m : ℕ) : ℤ) - ((P : ℕ) : ℤ) = -((r : ℕ) : ℤ) := by omega
    have e2 : ((m + D : ℕ) : ℤ) - ((P : ℕ) : ℤ) = ((D - r : ℕ) : ℤ) := by omega
    split_ifs
    · rw [hs, hm, e1, Int.natAbs_neg, Int.natAbs_ofNat]
      omega
    · rw [hs, hs1, e2, Int.natAbs_ofNat]
      omega
    · rw [hs, hm, e1, Int.natAbs_neg, Int.natAbs_ofNat]
      omega
    · rw [hs, hs1, e2, Int.natAbs_ofNat]
      omega
  · rcases hU with hU | hU
    · left
      rw [hU, pow_zero]
    · right
      have h1 : P / Q * Q ≤ P := Nat.div_mul_le_self P Q
      calc 2 ^ 23 * (Q * 2 ^ ulpExp (P / Q) (P / Q))
          = (2 ^ 23 * 2 ^ ulpExp (P / Q) (P / Q)) * Q := by ring
        _ ≤ P / Q * Q := Nat.mul_le_mul_right Q hU
        _ ≤ P := h1

/-- A result in the normal range is within the relative error `2^(-23)`. -/
lemma roundNat_rel (P Q : ℕ) (hQ : 0 < Q) (hn : 2 ^ 23 ≤ roundNat P Q) :
    2 ^ 23 * ((roundNat P Q * Q : ℕ) - (P : ℤ)).natAbs ≤ P := by
  obtain ⟨U, hU, h1, h2⟩ := roundNat_error_gen P Q hQ
  have h3 : 2 ^ 23 * Q ≤ roundNat P Q * Q := Nat.mul_le_mul_right Q hn
  generalize roundNat P Q * Q = X at *
  rcases h2 with h2 | h2
  · subst h2
    rw [mul_one] at h1
    omega
  · generalize Q * U = D at *
    omega

lemma round32_rel {p m : ℤ} {Q : ℕ} (hQ : 0 < Q) (h : round32 p Q = fin m)
    (hn : 2 ^ 23 ≤ m.natAbs) : 2 ^ 23 * |m * Q - p| ≤ |p| := by
  simp only [round32] at h
  split_ifs at h with h1 h2
  · simp only [fin.injEq] at h
    subst h
    rw [Int.natAbs_neg, Int.natAbs_ofNat] at hn
    have hr := roundNat_rel p.natAbs Q hQ hn
    have hp : (p.natAbs : ℤ) = -p := by omega
    have e : -((roundNat p.natAbs Q : ℕ) : ℤ) * Q - p
        = -(((roundNat p.natAbs Q * Q : ℕ) : ℤ) - (p.natAbs : ℤ)) := by
      push_cast
      rw [abs_of_neg h2]
      ring
    rw [e, abs_neg, Int.abs_eq_natAbs, Int.abs_eq_natAbs]
    exact_mod_cast hr
  · simp only [fin.injEq] at h
    subst h
    rw [Int.natAbs_ofNat] at hn
    have hr := roundNat_rel p.natAbs Q hQ hn
    have hp : (p.natAbs : ℤ) = p := by omega
    have e : ((roundNat p.natAbs Q : ℕ) : ℤ) * Q - p
        = ((roundNat p.natAbs Q * Q : ℕ) : ℤ) - (p.natAbs : ℤ) := by
      push_cast
      rw [abs_of_nonneg (not_lt.mp h2)]
    rw [e, Int.abs_eq_natAbs, Int.abs_eq_natAbs]
    exact_mod_cast hr

lemma round32_zero (Q : ℕ) (hQ : 0 < Q) : round32 0 Q = fin 0 := by
  have h : ¬ (2 ^ 277 ≤ 0) := fun h0 => pow_ne_zero 277 two_ne_zero (Nat.le_zero.mp h0)
  simp only [round32, Int.natAbs_zero, roundNat_zero Q hQ, if_neg h, lt_irrefl, if_false,
    Nat.cast_zero]

/-- Two approximated terms, added with a relative error: the sum is within
`3 E` of the bound on the magnitudes. -/
lemma approx_add {E u v x y s bx by' : ℚ} (hE0 : 0 ≤ E) (hE1 : E ≤ 1)
    (hu : |u - x| ≤ E * bx) (hv : |v - y| ≤ E * by') (hx : |x| ≤ bx) (hy : |y| ≤ by')
    (hs : |s - (u + v)| ≤ E * |u + v|) :
    |s - (x + y)| ≤ 3 * E * (bx + by') := by
  have hbx : 0 ≤ bx := le_trans (abs_nonneg x) hx
  have hby : 0 ≤ by' := le_trans (abs_nonneg y) hy
  have h1 : |u| ≤ (1 + E) * bx := by
    have := abs_sub_abs_le_abs_sub u x
    linarith
  have h2 : |v| ≤ (1 + E) * by' := by
    have := abs_sub_abs_le_abs_sub v y
    linarith
  have h3 : |u + v| ≤ (1 + E) * (bx + by') := by
    have := abs_add u v
    linarith
  have h4 : |s - (x + y)| ≤ |s - (u + v)| + |u - x| + |v - y| := by
    have e : s - (x + y) = (s - (u + v)) + (u - x) + (v - y) := by ring
    rw [e]
    exact abs_add_three _ _ _
  have h5 : E * |u + v| ≤ E * ((1 + E) * (bx + by')) := mul_le_mul_of_nonneg_left h3 hE0
  have h6 : E * E * (bx + by') ≤ E * (bx + by') := by
    have : E * E ≤ E * 1 := mul_le_mul_of_nonneg_left hE1 hE0
    rw [mul_one] at this
    exact mul_le_mul_of_nonneg_right this (add_nonneg hbx hby)
  linarith

/-- The same for a difference. -/
lemma approx_sub {E u v x y s bx by' : ℚ} (hE0 : 0 ≤ E) (hE1 : E ≤ 1)
    (hu : |u - x| ≤ E * bx) (hv : |v - y| ≤ E * by') (hx : |x| ≤ bx) (hy : |y| ≤ by')
    (hs : |s - (u - v)| ≤ E * |u - v|) :
    |s - (x - y)| ≤ 3 * E * (bx + by') := by
  have hv2 : |(-v) - (-y)| ≤ E * by' := by
    have e : (-v) - (-y) = -(v - y) := by ring
    rw [e, abs_neg]; exact hv
  have hy2 : |(-y)| ≤ by' := by rw [abs_neg]; exact hy
  have hs2 : |s - (u + -v)| ≤ E * |u + -v| := by
    rw [← sub_eq_add_neg]; exact hs
  have := approx_add hE0 hE1 hu hv2 hx hy2 hs2
  rwa [← sub_eq_add_neg] at this

/-- The error of `cdiv (cmult z w) w` in its real part, from the relative
error `E` of each operation: `x1 … q` are the results inside `cmult`,
`y1 … N` those inside `cdiv`, and `r` is the rounded quotient `N / D`. -/
lemma cdiv_cmult_error {E a b c d x1 x2 x3 x4 p q y1 y2 D n1 n2 N r : ℚ}
    (hE0 : 0 ≤ E) (hE1 : E ≤ 1 / 16)
    (hx1 : |x1 - a * c| ≤ E * |a * c|) (hx2 : |x2 - b * d| ≤ E * |b * d|)
    (hp : |p - (x1 - x2)| ≤ E * |x1 - x2|)
    (hx3 : |x3 - a * d| ≤ E * |a * d|) (hx4 : |x4 - b * c| ≤ E * |b * c|)
    (hq : |q - (x3 + x4)| ≤ E * |x3 + x4|)
    (hy1 : |y1 - c * c| ≤ E * |c * c|) (hy2 : |y2 - d * d| ≤ E * |d * d|)
    (hD : |D - (y1 + y2)| ≤ E * |y1 + y2|)
    (hn1 : |n1 - p * c| ≤ E * |p * c|) (hn2 : |n2 - q * d| ≤ E * |q * d|)
    (hN : |N - (n1 + n2)| ≤ E * |n1 + n2|)
    (hr : |r * D - N| ≤ E * |N|) (hcd : 0 < c * c + d * d) :
    |r - a| ≤ 16 * E * (|a| + |b|) := by
  have hE : E ≤ 1 := by linarith
  have ha := abs_nonneg a
  have hb := abs_nonneg b
  have hc := abs_nonneg c
  have hd := abs_nonneg d
  have hcc : |c| * |c| = c * c := abs_mul_abs_self c
  have hdd : |d| * |d| = d * d := abs_mul_abs_self d
  have h2cd : 2 * (|c| * |d|) ≤ c * c + d * d := by
    nlinarith [sq_nonneg (|c| - |d|)]
  -- the two components of the product
  have P1 : |p - (a * c - b * d)| ≤ 3 * E * (|a| * |c| + |b| * |d|) :=
    approx_sub hE0 hE (by rwa [abs_mul] at hx1) (by rwa [abs_mul] at hx2)
      (le_of_eq (abs_mul a c)) (le_of_eq (abs_mul b d)) hp
  have Q1 : |q - (a * d + b * c)| ≤ 3 * E * (|a| * |d| + |b| * |c|) :=
    approx_add hE0 hE (by rwa [abs_mul] at hx3) (by rwa [abs_mul] at hx4)
      (le_of_eq (abs_mul a d)) (le_of_eq (abs_mul b c)) hq
  -- the denominator
  have D1 : |D - (c * c + d * d)| ≤ 3 * E * (c * c + d * d) := by
    have := approx_add hE0 hE hy1 hy2 (le_refl _) (le_refl _) hD
    rwa [abs_mul_self, abs_mul_self] at this
  have Dlo : (1 - 3 * E) * (c * c + d * d) ≤ D := by
    have := (abs_le.mp D1).1
    linarith
  have Dpos : 0 < D := by
    have : 0 < (1 - 3 * E) * (c * c + d * d) := mul_pos (by linarith) hcd
    linarith
  -- magnitudes of the components of the product
  have Pb : |p| ≤ (1 + 3 * E) * (|a| * |c| + |b| * |d|) := by
    have h1 := abs_sub_abs_le_abs_sub p (a * c - b * d)
    have h2 : |a * c - b * d| ≤ |a| * |c| + |b| * |d| := by
      have := abs_sub (a * c) (b * d)
      rwa [abs_mul, abs_mul] at this
    linarith
  have Qb : |q| ≤ (1 + 3 * E) * (|a| * |d| + |b| * |c|) := by
    have h1 := abs_sub_abs_le_abs_sub q (a * d + b * c)
    have h2 : |a * d + b * c| ≤ |a| * |d| + |b| * |c| := by
      have := abs_add (a * d) (b * c)
      rwa [abs_mul, abs_mul] at this
    linarith
  -- the bound `K` on the numerator
  have K1 : (|a| * |c| + |b| * |d|) * |c| + (|a| * |d| + |b| * |c|) * |d|
      ≤ (|a| + |b|) * (c * c + d * d) := by
    have e : (|a| * |c| + |b| * |d|) * |c| + (|a| * |d| + |b| * |c|) * |d|
        = |a| * (|c| * |c| + |d| * |d|) + |b| * (2 * (|c| * |d|)) := by ring
    rw [e, hcc, hdd]
    have := mul_le_mul_of_nonneg_left h2cd hb
    linarith
  have K0 : 0 ≤ (|a| + |b|) * (c * c + d * d) := mul_nonneg (by linarith) hcd.le
  have PQ : |p| * |c| + |q| * |d| ≤ (1 + 3 * E) * ((|a| + |b|) * (c * c + d * d)) := by
    have h1 := mul_le_mul_of_nonneg_right Pb hc
    have h2 := mul_le_mul_of_nonneg_right Qb hd
    have h3 : (0 : ℚ) ≤ 1 + 3 * E := by linarith
    have h4 := mul_le_mul_of_nonneg_left K1 h3
    linarith
  -- the numerator
  have N1 : |N - (p * c + q * d)| ≤ 3 * E * (|p| * |c| + |q| * |d|) :=
    approx_add hE0 hE (by rwa [abs_mul] at hn1) (by rwa [abs_mul] at hn2)
      (le_of_eq (abs_mul p c)) (le_of_eq (abs_mul q d)) hN
  have N2 : |p * c + q * d - a * (c * c + d * d)|
      ≤ 3 * E * ((|a| + |b|) * (c * c + d * d)) := by
    have e : p * c + q * d - a * (c * c + d * d)
        = (p - (a * c - b * d)) * c + (q - (a * d + b * c)) * d := by ring
    rw [e]
    have h1 := abs_add ((p - (a * c - b * d)) * c) ((q - (a * d + b * c)) * d)
    rw [abs_mul, abs_mul] at h1
    have h2 := mul_le_mul_of_nonneg_right P1 hc
    have h3 := mul_le_mul_of_nonneg_right Q1 hd
    have h4 := mul_le_mul_of_nonneg_left K1 (by linarith : (0 : ℚ) ≤ 3 * E)
    linarith
  have N3 : |N - a * (c * c + d * d)| ≤ 7 * E * ((|a| + |b|) * (c * c + d * d)) := by
    have e : N - a * (c * c + d * d)
        = (N - (p * c + q * d)) + (p * c + q * d - a * (c * c + d * d)) := by ring
    rw [e]
    have h1 := abs_add (N - (p * c + q * d)) (p * c + q * d - a * (c * c + d * d))
    have h2 := mul_le_mul_of_nonneg_left PQ (by linarith : (0 : ℚ) ≤ 3 * E)
    have h3 : E * (E * ((|a| + |b|) * (c * c + d * d)))
        ≤ E * (1 / 16 * ((|a| + |b|) * (c * c + d * d))) :=
      mul_le_mul_of_nonneg_left (mul_le_mul_of_nonneg_right hE1 K0) hE0
    have h4 : 0 ≤ E * ((|a| + |b|) * (c * c + d * d)) := mul_nonneg hE0 K0
    linarith
  have N4 : |N| ≤ 2 * ((|a| + |b|) * (c * c + d * d)) := by
    have h1 := abs_sub_abs_le_abs_sub N (a * (c * c + d * d))
    have h2 : |a * (c * c + d * d)| ≤ (|a| + |b|) * (c * c + d * d) := by
      rw [abs_mul, abs_of_pos hcd]
      exact mul_le_mul_of_nonneg_right (by linarith) hcd.le
    have h3 : 7 * E * ((|a| + |b|) * (c * c + d * d)) ≤ (|a| + |b|) * (c * c + d * d) := by
      have h7 : 7 * E ≤ 1 := by linarith
      have := mul_le_mul_of_nonneg_right h7 K0
      linarith
    linarith
  -- the quotient
  have R1 : |r - a| * D ≤ 12 * E * ((|a| + |b|) * (c * c + d * d)) := by
    have e : (r - a) * D
        = (r * D - N) + (N - a * (c * c + d * d)) + a * ((c * c + d * d) - D) := by ring
    have h0 : |r - a| * D = |(r - a) * D| := by rw [abs_mul, abs_of_pos Dpos]
    rw [h0, e]
    have h1 := abs_add_three (r * D - N) (N - a * (c * c + d * d)) (a * ((c * c + d * d) - D))
    have h2 : |a * ((c * c + d * d) - D)| ≤ 3 * E * ((|a| + |b|) * (c * c + d * d)) := by
      rw [abs_mul, abs_sub_comm]
      have h5 := mul_le_mul_of_nonneg_left D1 ha
      have h6 : |a| * (3 * E * (c * c + d * d)) ≤ 3 * E * ((|a| + |b|) * (c * c + d * d)) := by
        have : 0 ≤ 3 * E * (|b| * (c * c + d * d)) :=
          mul_nonneg (by linarith) (mul_nonneg hb hcd.le)
        linarith
      linarith
    have h3 : E * |N| ≤ E * (2 * ((|a| + |b|) * (c * c + d * d))) :=
      mul_le_mul_of_nonneg_left N4 hE0
    linarith
  by_contra hcon
  push_neg at hcon
  have h1 : 16 * E * (|a| + |b|) * D < |r - a| * D := mul_lt_mul_of_pos_right hcon Dpos
  have h2 : 0 ≤ E * (|a| + |b|) := mul_nonneg hE0 (by linarith)
  have h3 : E * (|a| + |b|) * ((1 - 3 * E) * (c * c + d * d)) ≤ E * (|a| + |b|) * D :=
    mul_le_mul_of_nonneg_left Dlo h2
  have h4 : E * (E * (|a| + |b|) * (c * c + d * d))
      ≤ 1 / 16 * (E * (|a| + |b|) * (c * c + d * d)) :=
    mul_le_mul_of_nonneg_right hE1 (mul_nonneg h2 hcd.le)
  have h5 : 0 ≤ E * (|a| + |b|) * (c * c + d * d) := mul_nonneg h2 hcd.le
  linarith

/-- The error of `cdiv (cmult z w) w` in its imaginary part: the real part's
analysis applied to `(b, -a)`. -/
lemma cdiv_cmult_error_im {E a b c d x1 x2 x3 x4 p q y1 y2 D m1 m2 M r : ℚ}
    (hE0 : 0 ≤ E) (hE1 : E ≤ 1 / 16)
    (hx1 : |x1 - a * c| ≤ E * |a * c|) (hx2 : |x2 - b * d| ≤ E * |b * d|)
    (hp : |p - (x1 - x2)| ≤ E * |x1 - x2|)
    (hx3 : |x3 - a * d| ≤ E * |a * d|) (hx4 : |x4 - b * c| ≤ E * |b * c|)
    (hq : |q - (x3 + x4)| ≤ E * |x3 + x4|)
    (hy1 : |y1 - c * c| ≤ E * |c * c|) (hy2 : |y2 - d * d| ≤ E * |d * d|)
    (hD : |D - (y1 + y2)| ≤ E * |y1 + y2|)
    (hm1 : |m1 - q * c| ≤ E * |q * c|) (hm2 : |m2 - p * d| ≤ E * |p * d|)
    (hM : |M - (m1 - m2)| ≤ E * |m1 - m2|)
    (hr : |r * D - M| ≤ E * |M|) (hcd : 0 < c * c + d * d) :
    |r - b| ≤ 16 * E * (|a| + |b|) := by
  have g2 : |(-x3) - b * c * 0 - (-a) * d| ≤ E * |(-a) * d| := by
    have e : (-x3) - b * c * 0 - (-a) * d = -(x3 - a * d) := by ring
    rw [e, abs_neg, neg_mul, abs_neg]; exact hx3
  have g2' : |(-x3) - (-a) * d| ≤ E * |(-a) * d| := by
    have e : (-x3) - (-a) * d = (-x3) - b * c * 0 - (-a) * d := by ring
    rw [e]; exact g2
  have gp : |q - (x4 - (-x3))| ≤ E * |x4 - (-x3)| := by
    have e : x4 - (-x3) = x3 + x4 := by ring
    rw [e]; exact hq
  have g4 : |(-x1) - (-a) * c| ≤ E * |(-a) * c| := by
    have e : (-x1) - (-a) * c = -(x1 - a * c) := by ring
    rw [e, abs_neg, neg_mul, abs_neg]; exact hx1
  have gq : |(-p) - (x2 + (-x1))| ≤ E * |x2 + (-x1)| := by
    have e1 : (-p) - (x2 + (-x1)) = -(p - (x1 - x2)) := by ring
    have e2 : x2 + (-x1) = -(x1 - x2) := by ring
    rw [e1, e2, abs_neg, abs_neg]; exact hp
  have gn2 : |(-m2) - (-p) * d| ≤ E * |(-p) * d| := by
    have e : (-m2) - (-p) * d = -(m2 - p * d) := by ring
    rw [e, abs_neg, neg_mul, abs_neg]; exact hm2
  have gN : |M - (m1 + (-m2))| ≤ E * |m1 + (-m2)| := by
    rw [← sub_eq_add_neg]; exact hM
  have := @cdiv_cmult_error E b (-a) c d x4 (-x3) x2 (-x1) q (-p) y1 y2 D m1 (-m2) M r
    hE0 hE1 hx4 g2' gp hx2 g4 gq hy1 hy2 hD hm1 gn2 gN hr hcd
  rw [abs_neg] at this
  linarith

/-- The relative error of a binary32 sum. -/
lemma fadd_rel {a b m : ℤ} (h : fadd (fin a) (fin b) = fin m) :
    |val m - (val a + val b)| ≤ 1 / 2 ^ 23 * |val a + val b| := by
  rw [fadd_fin] at h
  have e1 := round32_error h
  have e2 : (2 ^ 24 : ℤ) * |m - (a + b)| ≤ |a + b| := by
    rw [Int.abs_eq_natAbs, Int.abs_eq_natAbs]
    exact_mod_cast e1
  have e3 : (2 ^ 24 : ℚ) * |(m : ℚ) - ((a : ℚ) + b)| ≤ |(a : ℚ) + b| := by exact_mod_cast e2
  have e4 : val m - (val a + val b) = ((m : ℚ) - ((a : ℚ) + b)) / 2 ^ 149 := by
    simp only [val]; ring
  have e5 : val a + val b = ((a : ℚ) + b) / 2 ^ 149 := by
    simp only [val]; ring
  have hT : (0 : ℚ) < 2 ^ 149 := by positivity
  rw [e4, e5, abs_div, abs_div, abs_of_pos hT]
  rw [div_le_iff₀ hT]
  have n1 := abs_nonneg ((m : ℚ) - ((a : ℚ) + b))
  have e6 : 1 / 2 ^ 23 * (|(a : ℚ) + b| / 2 ^ 149) * 2 ^ 149 = |(a : ℚ) + b| / 2 ^ 23 := by
    field_simp
    ring
  rw [e6, le_div_iff₀ (by positivity)]
  linarith

/-- The relative error of a binary32 difference. -/
lemma fsub_rel {a b m : ℤ} (h : fsub (fin a) (fin b) = fin m) :
    |val m - (val a - val b)| ≤ 1 / 2 ^ 23 * |val a - val b| := by
  have h2 := h
  simp only [fsub, fneg] at h2
  have := fadd_rel h2
  have e : val (-b) = -val b := by simp only [val]; push_cast; ring
  rwa [e, ← sub_eq_add_neg] at this

lemma fmul_fin (a b : ℤ) : fmul (fin a) (fin b) = round32 (a * b) (2 ^ 149) := rfl

/-- The relative error of a binary32 product that is in the normal range, or
has a zero factor. -/
lemma fmul_rel {a b m : ℤ} (h : fmul (fin a) (fin b) = fin m)
    (hn : a = 0 ∨ b = 0 ∨ 2 ^ 23 ≤ m.natAbs) :
    |val m - val a * val b| ≤ 1 / 2 ^ 23 * |val a * val b| := by
  have hQ : 0 < 2 ^ 149 := Nat.two_pow_pos 149
  have h0 : a * b = 0 → |val m - val a * val b| ≤ 1 / 2 ^ 23 * |val a * val b| := by
    intro hab
    have h1 : fmul (fin a) (fin b) = fin 0 := by
      rw [fmul_fin, hab]; exact round32_zero _ hQ
    rw [h1] at h
    have hm : m = 0 := (fin.inj h).symm
    have hv : val a * val b = 0 := by
      simp only [val]
      rw [div_mul_div_comm]
      have : ((a : ℚ) * b) = 0 := by exact_mod_cast hab
      rw [this, zero_div]
    rw [hm, hv]
    simp [val]
  rcases hn with hn | hn | hn
  · exact h0 (by rw [hn, zero_mul])
  · exact h0 (by rw [hn, mul_zero])
  · rw [fmul_fin] at h
    have e1 := round32_rel hQ h hn
    have e2 : (2 ^ 23 : ℚ) * |(m : ℚ) * 2 ^ 149 - (a : ℚ) * b| ≤ |(a : ℚ) * b| := by
      exact_mod_cast e1
    have hT : (0 : ℚ) < 2 ^ 149 := by positivity
    have e4 : val m - val a * val b = ((m : ℚ) * 2 ^ 149 - (a : ℚ) * b) / (2 ^ 149 * 2 ^ 149) := by
      simp only [val]; field_simp; ring
    have e5 : val a * val b = ((a : ℚ) * b) / (2 ^ 149 * 2 ^ 149) := by
      simp only [val]; field_simp
    have hTT : (0 : ℚ) < 2 ^ 149 * 2 ^ 149 := mul_pos hT hT
    rw [e4, e5, abs_div, abs_div, abs_of_pos hTT, div_le_iff₀ hTT]
    have e6 : 1 / 2 ^ 23 * (|(a : ℚ) * b| / (2 ^ 149 * 2 ^ 149)) * (2 ^ 149 * 2 ^ 149)
        = |(a : ℚ) * b| / 2 ^ 23 := by
      field_simp
      ring
    rw [e6, le_div_iff₀ (by positivity)]
    linarith

/-- The relative error of a binary32 quotient that is in the normal range, or
has a zero dividend. -/
lemma fdiv_rel {n e m : ℤ} (h : fdiv (fin n) (fin e) = fin m) (he : e ≠ 0)
    (hn : n = 0 ∨ 2 ^ 23 ≤ m.natAbs) :
    |val m * val e - val n| ≤ 1 / 2 ^ 23 * |val n| := by
  have hQ : 0 < e.natAbs := Int.natAbs_pos.mpr he
  simp only [fdiv, if_neg he] at h
  rcases hn with hn | hn
  · subst hn
    simp only [zero_mul, neg_zero, ite_self] at h
    rw [round32_zero _ hQ] at h
    have hm : m = 0 := (fin.inj h).symm
    rw [hm]
    simp [val]
  · have e1 := round32_rel hQ h hn
    have e2 : (2 ^ 23 : ℤ) * |m * e - n * 2 ^ 149| ≤ |n * 2 ^ 149| := by
      by_cases hneg : e < 0
      · rw [if_pos hneg] at e1
        have hab : (e.natAbs : ℤ) = -e := by omega
        rw [hab, abs_neg] at e1
        have e3 : m * -e - -(n * 2 ^ 149) = -(m * e - n * 2 ^ 149) := by ring
        rwa [e3, abs_neg] at e1
      · rw [if_neg hneg] at e1
        have hab : (e.natAbs : ℤ) = e := by omega
        rwa [hab] at e1
    have e3 : (2 ^ 23 : ℚ) * |(m : ℚ) * e - (n : ℚ) * 2 ^ 149| ≤ |(n : ℚ) * 2 ^ 149| := by
      exact_mod_cast e2
    have hT : (0 : ℚ) < 2 ^ 149 := by positivity
    have hTT : (0 : ℚ) < 2 ^ 149 * 2 ^ 149 := mul_pos hT hT
    have e4 : val m * val e - val n = ((m : ℚ) * e - (n : ℚ) * 2 ^ 149) / (2 ^ 149 * 2 ^ 149) := by
      simp only [val]; field_simp; ring
    have e5 : val n = ((n : ℚ) * 2 ^ 149) / (2 ^ 149 * 2 ^ 149) := by
      simp only [val]; field_simp; ring
    rw [e4, e5, abs_div, abs_div, abs_of_pos hTT, div_le_iff₀ hTT]
    have e6 : 1 / 2 ^ 23 * (|(n : ℚ) * 2 ^ 149| / (2 ^ 149 * 2 ^ 149)) * (2 ^ 149 * 2 ^ 149)
        = |(n : ℚ) * 2 ^ 149| / 2 ^ 23 := by
      field_simp
      ring
    rw [e6, le_div_iff₀ (by positivity)]
    linarith

/-- Rounding never produces NaN. -/
lemma round32_ne_nan (p : ℤ) (Q : ℕ) : round32 p Q ≠ nan := by
  intro h
  simp only [round32] at h
  split_ifs at h

lemma safeAdd_fin {a b : ℤ} (h : safeAdd (fin a) (fin b) = true) :
    ∃ m, fadd (fin a) (fin b) = fin m ∧
      |val m - (val a + val b)| ≤ 1 / 2 ^ 23 * |val a + val b| := by
  rw [safeAdd] at h
  cases hs : fadd (fin a) (fin b) with
  | fin m => exact ⟨m, rfl, fadd_rel hs⟩
  | inf t => rw [hs] at h; exact absurd h (by simp [isFin])
  | nan => rw [hs] at h; exact absurd h (by simp [isFin])

lemma safeSub_fin {a b : ℤ} (h : safeSub (fin a) (fin b) = true) :
    ∃ m, fsub (fin a) (fin b) = fin m ∧
      |val m - (val a - val b)| ≤ 1 / 2 ^ 23 * |val a - val b| := by
  rw [safeSub] at h
  cases hs : fsub (fin a) (fin b) with
  | fin m => exact ⟨m, rfl, fsub_rel hs⟩
  | inf t => rw [hs] at h; exact absurd h (by simp [isFin])
  | nan => rw [hs] at h; exact absurd h (by simp [isFin])

lemma safeMul_fin {a b : ℤ} (h : safeMul (fin a) (fin b) = true) :
    ∃ m, fmul (fin a) (fin b) = fin m ∧
      |val m - val a * val b| ≤ 1 / 2 ^ 23 * |val a * val b| := by
  rw [safeMul] at h
  cases hs : fmul (fin a) (fin b) with
  | fin m =>
    rw [hs] at h
    have h0 : (a = 0 ∨ b = 0) ∨ 8388608 ≤ m.natAbs := by
      simpa [isFin, isZero, isNormal] using h
    exact ⟨m, rfl, fmul_rel hs (or_assoc.mp h0)⟩
  | inf t =>
    rw [hs] at h
    have h0 : a = 0 ∨ b = 0 := by simpa [isFin, isZero, isNormal] using h
    have h1 : fmul (fin a) (fin b) = fin 0 := by
      rw [fmul_fin]
      rcases h0 with h0 | h0
      · rw [h0, zero_mul]; exact round32_zero _ (Nat.two_pow_pos 149)
      · rw [h0, mul_zero]; exact round32_zero _ (Nat.two_pow_pos 149)
    rw [h1] at hs
    exact F32.noConfusion hs
  | nan =>
    rw [fmul_fin] at hs
    exact absurd hs (round32_ne_nan _ _)

lemma safeDiv_fin {n e : ℤ} (h : safeDiv (fin n) (fin e) = true) :
    e ≠ 0 ∧ ∃ m, fdiv (fin n) (fin e) = fin m ∧
      |val m * val e - val n| ≤ 1 / 2 ^ 23 * |val n| := by
  rw [safeDiv] at h
  have he : e ≠ 0 := by
    intro he
    rw [he] at h
    simp [isFin, isZero] at h
  refine ⟨he, ?_⟩
  have hne : ∀ p : ℤ, fdiv (fin p) (fin e) = round32 (if e < 0 then -(p * 2 ^ 149) else p * 2 ^ 149)
      e.natAbs := fun p => by simp only [fdiv, if_neg he]
  cases hs : fdiv (fin n) (fin e) with
  | fin m =>
    rw [hs] at h
    refine ⟨m, rfl, fdiv_rel hs he ?_⟩
    simpa [isFin, isZero, isNormal, he] using h
  | inf t =>
    rw [hs] at h
    have h0 : n = 0 := by simpa [isFin, isZero, isNormal, he] using h
    rw [hne, h0] at hs
    simp only [zero_mul, neg_zero, ite_self] at hs
    rw [round32_zero _ (Int.natAbs_pos.mpr he)] at hs
    exact F32.noConfusion hs
  | nan =>
    rw [hne] at hs
    exact absurd hs (round32_ne_nan _ _)

/-- The tolerance half of C1: when nothing overflows or underflows, the result
is finite and within `2^(-19) * (|z[0]| + |z[1]|)` of `z` in each component. -/
lemma cdiv_cmult_of_safe (a b c d : ℤ) (hw : (fin c, fin d) ≠ (fin 0, fin 0))
    (h1 : cmultSafe (fin a, fin b) (fin c, fin d) = true)
    (h2 : cdivSafe (cmult (fin a, fin b) (fin c, fin d)) (fin c, fin d) = true) :
    ∃ r1 r2 : ℤ,
      cdiv (cmult (fin a, fin b) (fin c, fin d)) (fin c, fin d) = (fin r1, fin r2) ∧
      |val r1 - val a| ≤ (|val a| + |val b|) / 2 ^ 19 ∧
      |val r2 - val b| ≤ (|val a| + |val b|) / 2 ^ 19 := by
  simp only [cmultSafe, Bool.and_eq_true] at h1
  obtain ⟨⟨⟨⟨⟨x1, x2⟩, s1⟩, x3⟩, x4⟩, s2⟩ := h1
  obtain ⟨m1, f1, e1⟩ := safeMul_fin x1
  obtain ⟨m2, f2, e2⟩ := safeMul_fin x2
  obtain ⟨m3, f3, e3⟩ := safeMul_fin x3
  obtain ⟨m4, f4, e4⟩ := safeMul_fin x4
  rw [f1, f2] at s1
  rw [f3, f4] at s2
  obtain ⟨p, fp, ep⟩ := safeSub_fin s1
  obtain ⟨q, fq, eq⟩ := safeAdd_fin s2
  have hc : cmult (fin a, fin b) (fin c, fin d) = (fin p, fin q) := by
    simp only [cmult, f1, f2, f3, f4, fp, fq]
  rw [hc] at h2 ⊢
  simp only [cdivSafe, Bool.and_eq_true] at h2
  obtain ⟨⟨⟨⟨⟨⟨⟨⟨⟨⟨y1, y2⟩, t1⟩, y3⟩, y4⟩, t2⟩, y5⟩, y6⟩, t3⟩, dv1⟩, dv2⟩ := h2
  obtain ⟨k1, u1, g1⟩ := safeMul_fin y1
  obtain ⟨k2, u2, g2⟩ := safeMul_fin y2
  obtain ⟨n1, v1, j1⟩ := safeMul_fin y3
  obtain ⟨n2, v2, j2⟩ := safeMul_fin y4
  obtain ⟨n3, v3, j3⟩ := safeMul_fin y5
  obtain ⟨n4, v4, j4⟩ := safeMul_fin y6
  rw [u1, u2] at t1 dv1 dv2
  rw [v1, v2] at t2 dv1
  rw [v3, v4] at t3 dv2
  obtain ⟨D, uD, gD⟩ := safeAdd_fin t1
  obtain ⟨N, uN, gN⟩ := safeAdd_fin t2
  obtain ⟨M, uM, gM⟩ := safeSub_fin t3
  rw [uD, uN] at dv1
  rw [uD, uM] at dv2
  obtain ⟨hD0, r1, w1, gr1⟩ := safeDiv_fin dv1
  obtain ⟨-, r2, w2, gr2⟩ := safeDiv_fin dv2
  have hz : isZero (fin D) = false := by
    simp only [isZero, decide_eq_false_iff_not]
    exact hD0
  have hcd : 0 < val c * val c + val d * val d := by
    have hne : ¬ (c = 0 ∧ d = 0) := fun h => hw (by rw [h.1, h.2])
    have hv : ∀ x : ℤ, x ≠ 0 → 0 < val x * val x := by
      intro x hx
      have : val x ≠ 0 := by
        simp only [val]
        exact div_ne_zero (Int.cast_ne_zero.mpr hx) (by positivity)
      exact mul_self_pos.mpr this
    rcases not_and_or.mp hne with h | h
    · exact add_pos_of_pos_of_nonneg (hv c h) (mul_self_nonneg _)
    · exact add_pos_of_nonneg_of_pos (mul_self_nonneg _) (hv d h)
  have hE0 : (0 : ℚ) ≤ 1 / 2 ^ 23 := by positivity
  have hE1 : (1 : ℚ) / 2 ^ 23 ≤ 1 / 16 := by norm_num
  have hK : (16 : ℚ) * (1 / 2 ^ 23) = 1 / 2 ^ 19 := by norm_num
  refine ⟨r1, r2, ?_, ?_, ?_⟩
  · simp only [cdiv, u1, u2, uD, hz, v1, v2, uN, v3, v4, uM, w1, w2, Bool.false_eq_true,
      if_false]
  · have := cdiv_cmult_error hE0 hE1 e1 e2 ep e3 e4 eq g1 g2 gD j1 j2 gN gr1 hcd
    rw [hK] at this
    rw [div_eq_mul_one_div, mul_comm]
    exact this
  · have := cdiv_cmult_error_im hE0 hE1 e1 e2 ep e3 e4 eq g1 g2 gD j3 j4 gM gr2 hcd
    rw [hK] at this
    rw [div_eq_mul_one_div, mul_comm]
    exact this

/-- The error bound for `(a + c) - c`, from a finite final result alone: an
overflow of the sum would have left an infinity. -/
lemma fsub_fadd_error_of_fin {a c r : ℤ} (h : fsub (fadd (fin a) (fin c)) (fin c) = fin r) :
    2 ^ 23 * |r - a| ≤ |a| + |a + c| := by
  cases hs : fadd (fin a) (fin c) with
  | fin s =>
    rw [hs] at h
    exact fsub_fadd_error hs h
  | inf t =>
    rw [hs] at h
    exact F32.noConfusion h
  | nan =>
    rw [hs] at h
    exact F32.noConfusion h

/-! ## Binary32 reading: division undoes multiplication -/

/-- The exact half of C1: when nothing is rounded, the result is `z`. -/
lemma cdiv_cmult_of_exact (a b c d : ℤ) (ha : Representable a) (hb : Representable b)
    (hw : (fin c, fin d) ≠ (fin 0, fin 0))
    (h1 : cmultExact (fin a, fin b) (fin c, fin d) = true)
    (h2 : cdivExact (cmult (fin a, fin b) (fin c, fin d)) (fin c, fin d) = true) :
    cdiv (cmult (fin a, fin b) (fin c, fin d)) (fin c, fin d) = (fin a, fin b) := by
  simp only [cmultExact, Bool.and_eq_true] at h1
  obtain ⟨⟨⟨⟨⟨x1, x2⟩, s1⟩, x3⟩, x4⟩, s2⟩ := h1
  obtain ⟨m1, e1, f1⟩ := exactMul_fin x1
  obtain ⟨m2, e2, f2⟩ := exactMul_fin x2
  obtain ⟨m3, e3, f3⟩ := exactMul_fin x3
  obtain ⟨m4, e4, f4⟩ := exactMul_fin x4
  rw [f1, f2] at s1
  rw [f3, f4] at s2
  simp only [exactSub, exactAdd, decide_eq_true_eq] at s1 s2
  have hc : cmult (fin a, fin b) (fin c, fin d) = (fin (m1 - m2), fin (m3 + m4)) := by
    simp only [cmult, f1, f2, f3, f4, s1, s2]
  rw [hc] at h2 ⊢
  simp only [cdivExact, Bool.and_eq_true] at h2
  obtain ⟨⟨⟨⟨⟨⟨⟨⟨y1, y2⟩, t1⟩, y3⟩, y4⟩, t2⟩, y5⟩, y6⟩, t3⟩ := h2
  obtain ⟨k1, g1, u1⟩ := exactMul_fin y1
  obtain ⟨k2, g2, u2⟩ := exactMul_fin y2
  obtain ⟨n1, p1, v1⟩ := exactMul_fin y3
  obtain ⟨n2, p2, v2⟩ := exactMul_fin y4
  obtain ⟨n3, p3, v3⟩ := exactMul_fin y5
  obtain ⟨n4, p4, v4⟩ := exactMul_fin y6
  rw [u1, u2] at t1
  rw [v1, v2] at t2
  rw [v3, v4] at t3
  simp only [exactSub, exactAdd, decide_eq_true_eq] at t1 t2 t3
  have hT : (0 : ℤ) < 2 ^ 149 := by positivity
  have hpos : 0 < k1 + k2 := by
    have hcd : 0 < c * c + d * d := by
      have hne : ¬ (c = 0 ∧ d = 0) := fun h => hw (by rw [h.1, h.2])
      rcases not_and_or.mp hne with h | h
      · exact add_pos_of_pos_of_nonneg (mul_self_pos.mpr h) (mul_self_nonneg d)
      · exact add_pos_of_nonneg_of_pos (mul_self_nonneg c) (mul_self_pos.mpr h)
    have h3 : (k1 + k2) * 2 ^ 149 = c * c + d * d := by linear_combination g1 + g2
    by_contra hn
    push_neg at hn
    have := mul_nonpos_of_nonpos_of_nonneg hn hT.le
    omega
  have hz : isZero (fin (k1 + k2)) = false := by
    simp only [isZero, decide_eq_false_iff_not]
    exact hpos.ne.symm
  have hre : (n1 + n2) * 2 ^ 149 = a * (k1 + k2) := by
    have h3 : ((n1 + n2) * 2 ^ 149 - a * (k1 + k2)) * 2 ^ 149 = 0 := by
      linear_combination (2 ^ 149) * p1 + (2 ^ 149) * p2 + c * e1 - c * e2 + d * e3 + d * e4
        - a * g1 - a * g2
    rcases mul_eq_zero.mp h3 with h | h
    · linarith
    · exact absurd h hT.ne.symm
  have him : (n3 - n4) * 2 ^ 149 = b * (k1 + k2) := by
    have h3 : ((n3 - n4) * 2 ^ 149 - b * (k1 + k2)) * 2 ^ 149 = 0 := by
      linear_combination (2 ^ 149) * p3 - (2 ^ 149) * p4 + c * e3 + c * e4 - d * e1 + d * e2
        - b * g1 - b * g2
    rcases mul_eq_zero.mp h3 with h | h
    · linarith
    · exact absurd h hT.ne.symm
  simp only [cdiv, u1, u2, t1, hz, v1, v2, t2, v3, v4, t3, Bool.false_eq_true, if_false,
    fdiv_of_exact ha hpos hre, fdiv_of_exact hb hpos him]

/-- C1 (amended): over binary32, for `w ≠ (0,0)`, `cdiv (cmult z w) w = z`
whenever no product, sum or difference evaluated by `cmult z w` and by `cdiv`
before its two quotients is rounded; and whenever none of the operations of
`cmult z w` and `cdiv` overflows or underflows, the result is finite and each
of its components is within `2^(-19) * (|z[0]| + |z[1]|)` of that of `z`. -/
theorem cdiv_cmult_binary32 (a b c d : ℤ) (hw : (fin c, fin d) ≠ (fin 0, fin 0)) :
    (Representable a → Representable b →
      cmultExact (fin a, fin b) (fin c, fin d) = true →
      cdivExact (cmult (fin a, fin b) (fin c, fin d)) (fin c, fin d) = true →
      cdiv (cmult (fin a, fin b) (fin c, fin d)) (fin c, fin d) = (fin a, fin b)) ∧
    (cmultSafe (fin a, fin b) (fin c, fin d) = true →
      cdivSafe (cmult (fin a, fin b) (fin c, fin d)) (fin c, fin d) = true →
      ∃ r1 r2 : ℤ,
        cdiv (cmult (fin a, fin b) (fin c, fin d)) (fin c, fin d) = (fin r1, fin r2) ∧
        |val r1 - val a| ≤ (|val a| + |val b|) / 2 ^ 19 ∧
        |val r2 - val b| ≤ (|val a| + |val b|) / 2 ^ 19) :=
  ⟨fun ha hb h1 h2 => cdiv_cmult_of_exact a b c d ha hb hw h1 h2,
    fun h1 h2 => cdiv_cmult_of_safe a b c d hw h1 h2⟩

/-- Witness of C1 (amended).  At `z = (3, 4)`, `w = (1, 2)` nothing is rounded
and the result is `z`; at the binary32 numbers nearest to `z = (0.1, 0.2)`,
`w = (0.3, 0.4)` nothing overflows or underflows, and the result, the binary32
numbers `(6710887 * 2^(-26), 6710887 * 2^(-25))`, is not `z` but within the
bound. -/
theorem cdiv_cmult_binary32_witness :
    ((fin (1 * 2 ^ 149), fin (2 * 2 ^ 149)) ≠ (fin 0, fin 0) ∧
      Representable (3 * 2 ^ 149) ∧ Representable (4 * 2 ^ 149) ∧
      cmultExact (fin (3 * 2 ^ 149), fin (4 * 2 ^ 149))
        (fin (1 * 2 ^ 149), fin (2 * 2 ^ 149)) = true ∧
      cdivExact (cmult (fin (3 * 2 ^ 149), fin (4 * 2 ^ 149))
        (fin (1 * 2 ^ 149), fin (2 * 2 ^ 149))) (fin (1 * 2 ^ 149), fin (2 * 2 ^ 149)) = true ∧
      cdiv (cmult (fin (3 * 2 ^ 149), fin (4 * 2 ^ 149)) (fin (1 * 2 ^ 149), fin (2 * 2 ^ 149)))
        (fin (1 * 2 ^ 149), fin (2 * 2 ^ 149)) = (fin (3 * 2 ^ 149), fin (4 * 2 ^ 149))) ∧
    ((fin (5033165 * 2 ^ 125), fin (13421773 * 2 ^ 124)) ≠ (fin 0, fin 0) ∧
      cmultSafe (fin (13421773 * 2 ^ 122), fin (13421773 * 2 ^ 123))
        (fin (5033165 * 2 ^ 125), fin (13421773 * 2 ^ 124)) = true ∧
      cdivSafe (cmult (fin (13421773 * 2 ^ 122), fin (13421773 * 2 ^ 123))
        (fin (5033165 * 2 ^ 125), fin (13421773 * 2 ^ 124)))
        (fin (5033165 * 2 ^ 125), fin (13421773 * 2 ^ 124)) = true ∧
      cdiv (cmult (fin (13421773 * 2 ^ 122), fin (13421773 * 2 ^ 123))
        (fin (5033165 * 2 ^ 125), fin (13421773 * 2 ^ 124)))
        (fin (5033165 * 2 ^ 125), fin (13421773 * 2 ^ 124))
        = (fin (6710887 * 2 ^ 123), fin (6710887 * 2 ^ 124)) ∧
      ∃ r1 r2 : ℤ,
        cdiv (cmult (fin (13421773 * 2 ^ 122), fin (13421773 * 2 ^ 123))
          (fin (5033165 * 2 ^ 125), fin (13421773 * 2 ^ 124)))
          (fin (5033165 * 2 ^ 125), fin (13421773 * 2 ^ 124)) = (fin r1, fin r2) ∧
        |val r1 - val (13421773 * 2 ^ 122)|
          ≤ (|val (13421773 * 2 ^ 122)| + |val (13421773 * 2 ^ 123)|) / 2 ^ 19 ∧
        |val r2 - val (13421773 * 2 ^ 123)|
          ≤ (|val (13421773 * 2 ^ 122)| + |val (13421773 * 2 ^ 123)|) / 2 ^ 19) :=
  ⟨⟨by decide!, by unfold Representable; decide!, by unfold Representable; decide!,
      by decide!, by decide!,
      (cdiv_cmult_binary32 (3 * 2 ^ 149) (4 * 2 ^ 149) (1 * 2 ^ 149) (2 * 2 ^ 149)
        (by decide!)).1 (by unfold Representable; decide!) (by unfold Representable; decide!)
        (by decide!) (by decide!)⟩,
    ⟨by decide!, by decide!, by decide!, by decide!,
      (cdiv_cmult_binary32 (13421773 * 2 ^ 122) (13421773 * 2 ^ 123) (5033165 * 2 ^ 125)
        (13421773 * 2 ^ 124) (by decide!)).2 (by decide!) (by decide!)⟩⟩

/-- C1 fails over binary32 at `z = (1, 0)`, `w = (2^(-75), 0)`: the components
are binary32 numbers and `w ≠ (0,0)`, but `w[0] * w[0] = 2^(-150)` rounds to
`0`, the guard `d == 0` fires and `cdiv (cmult z w) w` is `(0, 0)`, not `z`. -/
theorem cdiv_cmult_counterexample :
    Representable (2 ^ 149) ∧ Representable 0 ∧ Representable (2 ^ 74) ∧
    (fin (2 ^ 74), fin 0) ≠ (fin 0, fin 0) ∧
    cdiv (cmult (fin (2 ^ 149), fin 0) (fin (2 ^ 74), fin 0)) (fin (2 ^ 74), fin 0)
      = (fin 0, fin 0) ∧
    cdiv (cmult (fin (2 ^ 149), fin 0) (fin (2 ^ 74), fin 0)) (fin (2 ^ 74), fin 0)
      ≠ (fin (2 ^ 149), fin 0) := by
  refine ⟨?_, ?_, ?_, ?_, ?_, ?_⟩
  · unfold Representable; decide!
  · unfold Representable; decide!
  · unfold Representable; decide!
  · decide!
  · decide!
  · decide!

/-! ## Binary32 reading: subtraction undoes addition -/

/-- C15 (amended): over binary32, `csub (cadd z w) w = z` whenever the two
component sums `z[0] + w[0]` and `z[1] + w[1]` are binary32 numbers, that is,
whenever `cadd` rounds nothing; and whenever the result is finite, each of its
components differs from that of `z` by at most
`2^(-23) * (|z[i]| + |z[i] + w[i]|)`. -/
theorem csub_cadd_binary32 (a b c d : ℤ) :
    (Representable a → Representable b → Representable (a + c) → Representable (b + d) →
      csub (cadd (fin a, fin b) (fin c, fin d)) (fin c, fin d) = (fin a, fin b)) ∧
    (∀ r1 r2 : ℤ,
      csub (cadd (fin a, fin b) (fin c, fin d)) (fin c, fin d) = (fin r1, fin r2) →
      2 ^ 23 * |r1 - a| ≤ |a| + |a + c| ∧ 2 ^ 23 * |r2 - b| ≤ |b| + |b + d|) := by
  constructor
  · intro ha hb hac hbd
    have h1 : fadd (fin a) (fin c) = fin (a + c) := hac
    have h2 : fadd (fin b) (fin d) = fin (b + d) := hbd
    have h3 : fsub (fin (a + c)) (fin c) = fin a := by
      rw [fsub_fin, add_sub_cancel_right]; exact ha
    have h4 : fsub (fin (b + d)) (fin d) = fin b := by
      rw [fsub_fin, add_sub_cancel_right]; exact hb
    simp only [cadd, csub, h1, h2, h3, h4]
  · intro r1 r2 h
    have h1 : fsub (fadd (fin a) (fin c)) (fin c) = fin r1 := congrArg Prod.fst h
    have h2 : fsub (fadd (fin b) (fin d)) (fin d) = fin r2 := congrArg Prod.snd h
    exact ⟨fsub_fadd_error_of_fin h1, fsub_fadd_error_of_fin h2⟩

/-- Witness of C15 (amended) at `z = (3, 4)`, `w = (1, 2)`. -/
theorem csub_cadd_binary32_witness :
    Representable (3 * 2 ^ 149) ∧ Representable (4 * 2 ^ 149) ∧
    Representable (3 * 2 ^ 149 + 1 * 2 ^ 149) ∧ Representable (4 * 2 ^ 149 + 2 * 2 ^ 149) ∧
    csub (cadd (fin (3 * 2 ^ 149), fin (4 * 2 ^ 149)) (fin (1 * 2 ^ 149), fin (2 * 2 ^ 149)))
      (fin (1 * 2 ^ 149), fin (2 * 2 ^ 149)) = (fin (3 * 2 ^ 149), fin (4 * 2 ^ 149)) :=
  ⟨by unfold Representable; decide!, by unfold Representable; decide!,
    by unfold Representable; decide!, by unfold Representable; decide!,
    (csub_cadd_binary32 (3 * 2 ^ 149) (4 * 2 ^ 149) (1 * 2 ^ 149) (2 * 2 ^ 149)).1
      (by unfold Representable; decide!) (by unfold Representable; decide!)
      (by unfold Representable; decide!) (by unfold Representable; decide!)⟩

/-- C15 fails over binary32 at `z = (1, 0)`, `w = (2^24, 0)`: the components are
binary32 numbers, `1 + 2^24` rounds to `2^24`, and `csub (cadd z w) w` is
`(0, 0)`, not `z`. -/
theorem csub_cadd_counterexample :
    Representable (2 ^ 149) ∧ Representable 0 ∧ Representable (2 ^ 173) ∧
    csub (cadd (fin (2 ^ 149), fin 0) (fin (2 ^ 173), fin 0)) (fin (2 ^ 173), fin 0)
      = (fin 0, fin 0) ∧
    csub (cadd (fin (2 ^ 149), fin 0) (fin (2 ^ 173), fin 0)) (fin (2 ^ 173), fin 0)
      ≠ (fin (2 ^ 149), fin 0) := by
  refine ⟨?_, ?_, ?_, ?_, ?_⟩
  · unfold Representable; decide!
  · unfold Representable; decide!
  · unfold Representable; decide!
  · decide!
  · decide!

end Binary32

end ComplexMath
